import Mathlib

/-!
# Verification of the ThorVG raster-effects and Lottie evaluation core

This file gives a shallow embedding, in Lean 4, of the post-effect pixel
pipeline (`tvgSwPostEffects.cpp` style code: gaussian blur edge handling,
the box filter, drop shadow, fill, tritone) and of the Lottie evaluation
helpers (`LottieTextFollowPath::position`, `LottieSlot::assign/reset`,
`LottieGradient::populate`), together with theorems about the claims of
the natural-language specification.

Machine integers are modelled as `Nat`/`Int`; 8-bit channel math follows
the spec's numeric semantics section.  The `float` arithmetic of the box
filter is modelled exactly (IEEE-754 binary32, round-to-nearest-even) by
executable natural-number arithmetic on mantissa/exponent pairs.
-/

namespace ThorVG

/-! ## Numeric semantics (pixel math helpers)

Modelled from the spec: the helpers `MULTIPLY`, `ALPHA_BLEND` and
`INTERPOLATE` live in `tvgSwCommon.h`, which is not part of the provided
sources.  The spec defines them as: "multiply" = `round(a*b/255)`;
"alpha blend" = `src*srcA/255 + dst*(255−srcA)/255` per 8-bit channel;
"interpolate" = linear blend by an 8-bit factor.  Colors are modelled as
a 4-channel structure; the packed-32-bit additions of the source never
carry across channels (each per-channel sum is ≤ 255), so channelwise
modelling is value-faithful. -/

/-- Modelled from the spec: `MULTIPLY(a,b) = round(a*b/255)` on 8-bit values.
`255` is odd so `a*b/255` is never a tie; round-to-nearest is
`(a*b + 127) / 255` in natural division. -/
def MULTIPLY (a b : ℕ) : ℕ := (a * b + 127) / 255

/-- A 4-channel 8-bit color (the 32-bit packed pixel, unpacked). -/
structure Col where
  c0 : ℕ
  c1 : ℕ
  c2 : ℕ
  c3 : ℕ
  deriving Repr, DecidableEq

/-- Modelled from the spec: per-channel `src*srcA/255` (the `ALPHA_BLEND`
half of the composite; integer division). -/
def ALPHA_BLEND (c : Col) (a : ℕ) : Col :=
  ⟨c.c0 * a / 255, c.c1 * a / 255, c.c2 * a / 255, c.c3 * a / 255⟩

/-- Channelwise addition of two colors (the packed `+` of the source;
faithful because the per-channel sums in every use stay ≤ 255). -/
def addCol (x y : Col) : Col :=
  ⟨x.c0 + y.c0, x.c1 + y.c1, x.c2 + y.c2, x.c3 + y.c3⟩

/-- Modelled from the spec: `INTERPOLATE(s, d, a) =
ALPHA_BLEND(s, a) + ALPHA_BLEND(d, 255-a)` (linear blend by an 8-bit
factor). -/
def INTERPOLATE (s d : Col) (a : ℕ) : Col :=
  addCol (ALPHA_BLEND s a) (ALPHA_BLEND d (255 - a))

/-! ## Gaussian blur boundary remap (`_gaussianEdgeWrap`, `_gaussianEdgeExtend`)

Source: `_gaussianEdgeWrap` computes `r = idx % (end + 1)` with C++ `%`
(truncated toward zero, i.e. `Int.tmod`) and adds `end + 1` when the
remainder is negative; `_gaussianEdgeExtend` clamps. -/

def gaussianEdgeWrap (e idx : ℤ) : ℤ :=
  let r := Int.tmod idx (e + 1)
  if r < 0 then (e + 1) + r else r

def gaussianEdgeExtend (e idx : ℤ) : ℤ :=
  if idx < 0 then 0
  else if idx > e then e
  else idx

/-- `_gaussianRemap<border>`: border 1 wraps, otherwise extends. -/
def gaussianRemap (border : ℕ) (e idx : ℤ) : ℤ :=
  if border = 1 then gaussianEdgeWrap e idx else gaussianEdgeExtend e idx

/-! ## Tritone (`_trintone`)

Source lines 769-778 of the effects file: for luma `l < 128` the blend
factor is `min(l*2, 255)` applied between shadow and midtone; for
`l ≥ 128` it is `2*max(0, l-128)` applied between midtone and highlight.
`l` is a luma value, 0..255; natural subtraction models `max(0, l-128)`. -/

/-- The `l < 128` branch body of `_trintone`, as a formula in `l`. -/
def trintoneBelow (s m _h : Col) (l : ℕ) : Col :=
  let a := min (l * 2) 255
  addCol (ALPHA_BLEND s (255 - a)) (ALPHA_BLEND m a)

/-- The `l ≥ 128` branch body of `_trintone`, as a formula in `l`. -/
def trintoneAbove (_s m h : Col) (l : ℕ) : Col :=
  let a := 2 * (l - 128)
  addCol (ALPHA_BLEND m (255 - a)) (ALPHA_BLEND h a)

/-- `_trintone` itself: dispatch on the luma-128 breakpoint. -/
def trintone (s m h : Col) (l : ℕ) : Col :=
  if l < 128 then trintoneBelow s m h l else trintoneAbove s m h l

/-- The blend factor computed inside `_trintone` (both branches). -/
def trintoneFactor (l : ℕ) : ℕ :=
  if l < 128 then min (l * 2) 255 else 2 * (l - 128)

/-! ## Exact model of the box filter's `float` math (`_gaussianFilter`)

The source computes `iarr = 1.0f / (2*dimension + 1)` and, per output
pixel, `dst[i] = static_cast<uint8_t>(acc * iarr)` where `acc` is the
sliding-window sum held in a 32-bit `int`.  Both float operations are
IEEE-754 binary32 with round-to-nearest-even, i.e. "round the mantissa
to 24 bits, ties to even", which we implement on naturals.  The model
keeps `acc` as an unbounded integer and treats its int-to-float
conversion as exact; that is faithful to the source only while the
window sum stays below `2^24` (so the `int` cannot overflow and every
`acc` value is exactly representable in binary32, making `acc * iarr` a
single rounding).  The flat-field theorem therefore carries the window
sum bound `(2d+1)*c < 2^24` as a hypothesis; for larger sums the source
double-rounds (`(float)acc` for `acc ≥ 2^24`) or overflows its
accumulator (`acc ≥ 2^31`), regimes this model does not cover. -/

/-- Round `a / b` to the nearest integer, ties to even (`b > 0`). -/
def rne (a b : ℕ) : ℕ :=
  if 2 * (a % b) < b then a / b
  else if b < 2 * (a % b) then a / b + 1
  else if (a / b) % 2 = 0 then a / b else a / b + 1

/-- Floor of log2, by fuel-bounded halving (the fuel makes it reducible
by the proof kernel; 64 units cover every value below `2^64`, far above
anything the 32-bit source arithmetic can produce). -/
def log2p : ℕ → ℕ → ℕ
  | 0, _ => 0
  | fuel + 1, n => if 2 ≤ n then log2p fuel (n / 2) + 1 else 0

def nlog2 (n : ℕ) : ℕ := log2p 64 n

/-- Mantissa of the binary32 value `1.0f / n` (`n ≥ 1`): with
`s = ⌊log2 n⌋`, `1/n ∈ (2^-(s+1), 2^-s]` and its ulp is `2^-(24+s)`,
so `fl(1/n) = rne(2^(24+s), n) / 2^(24+s)`. -/
def f32recipMant (n : ℕ) : ℕ := rne (2 ^ (24 + nlog2 n)) n

/-- `trunc(fl(P / 2^t))` for `P : ℕ`: the binary32 product of an exact
integer and `fl(1/n)` is `P / 2^t` rounded to 24 significant bits
(round to nearest, ties to even), and the `static_cast<uint8_t>` then
truncates toward zero. -/
def floatMulTrunc (P t : ℕ) : ℕ :=
  if P = 0 then 0
  else if nlog2 P ≤ 23 then P / 2 ^ t
  else if t ≤ nlog2 P - 23 then rne P (2 ^ (nlog2 P - 23)) * 2 ^ (nlog2 P - 23 - t)
  else rne P (2 ^ (nlog2 P - 23)) / 2 ^ (t - (nlog2 P - 23))

/-- The value the filter writes for an integer sliding-window sum `acc`
at kernel radius `d`: `static_cast<uint8_t>(acc * (1.0f/(2d+1)))`.  The
int-to-float conversion of `acc` is exact exactly when `acc < 2^24`
(every such integer is a binary32 value), making the product a single
rounding; the theorems about this definition restrict themselves to
that domain via an explicit window-sum hypothesis. -/
def boxBlurValue (d acc : ℕ) : ℕ :=
  floatMulTrunc (acc * f32recipMant (2 * d + 1)) (24 + nlog2 (2 * d + 1))

/-- One flat-field output pixel: window sum `(2d+1)*c` fed to the float
divide-and-truncate. -/
def flatPixel (d c : ℕ) : ℕ := boxBlurValue d ((2 * d + 1) * c)

/-- `fl(1/(2d+1))` does not undershoot `1/(2d+1)`, checked for the radii
`d ≤ 11` (a sufficient condition for exact flat-field preservation). -/
def recipCondAll : Bool :=
  (List.range 12).all fun d =>
    decide (2 ^ (24 + nlog2 (2 * d + 1)) ≤ (2 * d + 1) * f32recipMant (2 * d + 1))

/-- The initial accumulation of `_gaussianFilter` for one row and one
channel: `for (x = -(dimension+1); x < dimension; ++x)` sums the
boundary-remapped samples (`2d+1` of them).  The source's accumulator
is a 32-bit `int`; this unbounded sum agrees with it only while every
partial sum stays below `2^31`, which the flat-field theorem's window
sum bound `(2d+1)*c < 2^24` guarantees. -/
def initAcc (border : ℕ) (e : ℤ) (srcRow : ℤ → ℕ) (d : ℕ) : ℤ :=
  ∑ i ∈ Finset.range (2 * d + 1),
    (srcRow (gaussianRemap border e (-(d + 1) + i)) : ℤ)

/-- The filtering loop of `_gaussianFilter` for one row and one channel:
at output `x` it adds the remapped right sample (`r = x + d`), subtracts
the remapped left sample (`l = x - (d+1)`), and emits
`static_cast<uint8_t>(acc * iarr)`.  Recursion is on the remaining
output count, which mirrors the loop bound `x < w`.  The accumulator is
modelled as an unbounded integer where the source uses a 32-bit `int`
that wraps at `2^31`; the theorems below stay inside the agreement
domain through their window-sum hypothesis. -/
def gaussianRowLoop (border : ℕ) (e : ℤ) (srcRow : ℤ → ℕ) (d : ℕ) :
    ℕ → ℤ → ℤ → List ℕ
  | 0, _, _ => []
  | wrem + 1, x, acc =>
      boxBlurValue d (acc + (srcRow (gaussianRemap border e (x + d)) : ℤ)
          - (srcRow (gaussianRemap border e (x - (d + 1))) : ℤ)).toNat
        :: gaussianRowLoop border e srcRow d wrem (x + 1)
            (acc + (srcRow (gaussianRemap border e (x + d)) : ℤ)
              - (srcRow (gaussianRemap border e (x - (d + 1))) : ℤ))

/-- One full box-filter pass on one row of width `w` (one channel):
`end = w - 1`, initial accumulation, then the filtering loop. -/
def gaussianRow (border d w : ℕ) (srcRow : ℤ → ℕ) : List ℕ :=
  gaussianRowLoop border ((w : ℤ) - 1) srcRow d w 0 (initAcc border ((w : ℤ) - 1) srcRow d)

/-! ## Fill effect, direct mode (`effectFill`, lines 682-696)

Buffers are modelled as functions from a flat (linear) address to a
pixel color, because the claim is about address arithmetic: the source
starts `dbuffer` at `recoverSfc->buf32 + bbox.min.y * recoverSfc->stride
+ bbox.min.x` but then advances it per row by `cmp->image.stride`, and
starts `sbuffer` at the image base with the image stride but advances it
by `recoverSfc->stride`.  Writes are sequential (a left fold), mirroring
the row/column loops. -/

/-- Point update of a flat buffer. -/
def bufWrite (buf : ℕ → Col) (i : ℕ) (v : Col) : ℕ → Col :=
  fun j => if j = i then v else buf j

/-- The per-pixel write of the direct branch:
`a = MULTIPLY(opacity, A(*src)); *dst = ALPHA_BLEND(color, a) +
ALPHA_BLEND(*dst, 255 - a)`.  `A` extracts the alpha channel (modelled
from the spec as channel 3). -/
def fillPixel (buf : ℕ → Col) (di : ℕ) (srcPix : Col) (color : Col) (opacity : ℕ) :
    ℕ → Col :=
  bufWrite buf di
    (addCol (ALPHA_BLEND color (MULTIPLY opacity srcPix.c3))
      (ALPHA_BLEND (buf di) (255 - MULTIPLY opacity srcPix.c3)))

/-- `effectFill`, direct branch.  Arguments mirror the source: the
recovery and image buffers with their strides, the region box min corner
and extent, the fill color bytes, and the compositor opacity.  Returns
the updated recovery buffer and the compositor `valid` flag (set to
`true` at the end of the branch).  Note the per-row pointer advances:
`dbuffer += cmp->image.stride; sbuffer += cmp->recoverSfc->stride;` —
the destination row offset uses the image stride and the source row
offset uses the recovery stride, exactly as in the source. -/
def effectFillDirect (recover image : ℕ → Col) (rstride istride minx miny w h : ℕ)
    (colR colG colB colA cmpOpacity : ℕ) : (ℕ → Col) × Bool :=
  ((List.range h).foldl (fun buf y =>
      (List.range w).foldl (fun buf2 x =>
          fillPixel buf2
            ((miny * rstride + minx) + y * istride + x)
            (image ((miny * istride + minx) + y * rstride + x))
            ⟨colR, colG, colB, 255⟩
            (MULTIPLY colA cmpOpacity))
        buf)
    recover,
   true)

/-- The value claim C1 asserts `effectFill` leaves at recovery pixel
`(x, y)` of the region: the fill formula applied to the recovery pixel
at `(miny+y)*rstride + (minx+x)` and the source pixel at
`(miny+y)*istride + (minx+x)`. -/
def fillClaimValue (recover image : ℕ → Col) (rstride istride minx miny x y : ℕ)
    (colR colG colB colA cmpOpacity : ℕ) : Col :=
  addCol
    (ALPHA_BLEND ⟨colR, colG, colB, 255⟩
      (MULTIPLY (MULTIPLY colA cmpOpacity)
        (image ((miny + y) * istride + (minx + x))).c3))
    (ALPHA_BLEND (recover ((miny + y) * rstride + (minx + x)))
      (255 - MULTIPLY (MULTIPLY colA cmpOpacity)
        (image ((miny + y) * istride + (minx + x))).c3))

/-! ## Drop shadow: out-of-canvas guard (`effectDropShadow`, line 590)

The guard `abs(offset.x) >= w || abs(offset.y) >= h` is evaluated before
any pixel is touched; everything after it is abstracted as an arbitrary
state transformer `rest`, so the no-op theorem holds for every possible
behavior of the filtering pipeline. -/

def effectDropShadowRun {σ : Type} (rest : σ → σ) (offx offy w h : ℤ) (st : σ) :
    Bool × σ :=
  if |offx| ≥ w ∨ |offy| ≥ h then (true, st) else (true, rest st)

/-! ## Drop shadow offset (`effectDropShadowUpdate`, lines 566-571)

The float trigonometry (`deg2rad`, `cosf`, `sinf` — `tvgMath.h` is not
under the provided sources; modelled from the spec's `90° − angle`
convention) is modelled over the reals; the `(int32_t)` casts truncate
toward zero. -/

noncomputable def deg2rad (degree : ℝ) : ℝ := degree * (Real.pi / 180)

/-- C-style cast of a real to an integer: truncation toward zero. -/
noncomputable def truncToInt (x : ℝ) : ℤ := if 0 ≤ x then ⌊x⌋ else -⌊-x⌋

/-- The transform scale used by `effectDropShadowUpdate`:
`sqrt(e11*e11 + e12*e12)`. -/
noncomputable def dropShadowScale (e11 e12 : ℝ) : ℝ :=
  Real.sqrt (e11 * e11 + e12 * e12)

/-- The shadow offset computed by `effectDropShadowUpdate`: for
`distance > 0`, `radian = deg2rad(90 - angle)` and the offset is
`((int32)(distance*scale*cos(radian)), (int32)(-1*distance*scale*sin(radian)))`;
otherwise `(0, 0)`. -/
noncomputable def dropShadowOffset (distance angle scale : ℝ) : ℤ × ℤ :=
  if 0 < distance then
    (truncToInt (distance * scale * Real.cos (deg2rad (90 - angle))),
     truncToInt (-1 * (distance * scale) * Real.sin (deg2rad (90 - angle))))
  else (0, 0)

/-! ## Lottie slot override (`LottieSlot::assign` / `LottieSlot::reset`)

All eight property kinds of the `switch` follow the same pattern —
back up the current live value once per override cycle, then overwrite
it from the target — so the property value is abstracted as a type
parameter `α`.  `pair->prop` is the `backup` option; `reset` restores
from it and frees it (dereferencing a null `prop` is unreachable when
`overridden` is set, and is modelled by keeping the current value). -/

structure SlotPair (α : Type) where
  value : α
  backup : Option α
  deriving Repr, DecidableEq

structure Slot (α : Type) where
  overridden : Bool
  pairs : List (SlotPair α)
  deriving Repr, DecidableEq

/-- `LottieSlot::assign(target, byDefault)`: `copy = !overridden &&
!byDefault`; each pair backs up its live value when `copy`, then takes
the target's value; `overridden` is set unless `byDefault`. -/
def slotAssign {α : Type} (sl : Slot α) (target : α) (byDefault : Bool) : Slot α :=
  { overridden := sl.overridden || !byDefault,
    pairs := sl.pairs.map fun p =>
      { value := target,
        backup := if !sl.overridden && !byDefault then some p.value else p.backup } }

/-- `LottieSlot::reset()`: no-op unless `overridden`; otherwise restore
every pair from its backup, free the backup, clear the flag. -/
def slotReset {α : Type} (sl : Slot α) : Slot α :=
  if sl.overridden then
    { overridden := false,
      pairs := sl.pairs.map fun p => { value := p.backup.getD p.value, backup := none } }
  else sl

/-! ## Gradient merge (`LottieGradient::populate`) -/

/-- Round half to even on rationals (C `nearbyint` in the default
rounding mode). -/
def rhe (x : ℚ) : ℤ :=
  if x - ⌊x⌋ < 1/2 then ⌊x⌋
  else if 1/2 < x - ⌊x⌋ then ⌊x⌋ + 1
  else if ⌊x⌋ % 2 = 0 then ⌊x⌋ else ⌊x⌋ + 1

/-- `(uint8_t)nearbyint(x * 255.0f)` of the source. -/
def nbyte (x : ℚ) : ℚ := ((rhe (x * 255) : ℤ) : ℚ)

/-- C-style cast toward zero. -/
def truncQ (x : ℚ) : ℤ := if 0 ≤ x then ⌊x⌋ else -⌊-x⌋

/-- Modelled from the spec: `tvg::lerp<uint8_t>(start, end, t) =
static_cast<uint8_t>(start + (end - start) * t)` (`tvgMath.h` is not
under the provided sources; the spec calls it linear interpolation
weighted by position). -/
def lerpB (a b p : ℚ) : ℚ := ((truncQ (a + (b - a) * p) : ℤ) : ℚ)

/-- One merged gradient stop (`Fill::ColorStop`); channel values kept as
rationals produced by the byte conversions above. -/
structure GStop where
  offset : ℚ
  r : ℚ
  g : ℚ
  b : ℚ
  a : ℚ
  deriving Repr, DecidableEq

/-- Read of `(*color.input)[i]`, total via a default (never out of range
in a well-formed run). -/
def gv (inp : List ℚ) (i : ℕ) : ℚ := inp.getD i 0

/-- The equal-offsets case of the merge walk: emit a combined stop. -/
def mkBoth (inp : List ℚ) (cidx aidx : ℕ) : GStop :=
  ⟨gv inp cidx, nbyte (gv inp (cidx+1)), nbyte (gv inp (cidx+2)),
    nbyte (gv inp (cidx+3)), nbyte (gv inp (aidx+1))⟩

/-- The color-offset-smaller case: emit the color stop with alpha
interpolated between the last emitted stop and the next alpha stop. -/
def mkColorStop (inp : List ℚ) (cidx aidx : ℕ) (out : List GStop) : GStop :=
  { offset := gv inp cidx
    r := nbyte (gv inp (cidx+1))
    g := nbyte (gv inp (cidx+2))
    b := nbyte (gv inp (cidx+3))
    a := match out.getLast? with
      | some lg => lerpB lg.a (nbyte (gv inp (aidx+1)))
          ((gv inp cidx - lg.offset) / (gv inp aidx - lg.offset))
      | none => nbyte (gv inp (aidx+1)) }

/-- The alpha-offset-smaller case: emit the alpha stop with color
channels interpolated between the last emitted stop and the next color
stop. -/
def mkAlphaStop (inp : List ℚ) (cidx aidx : ℕ) (out : List GStop) : GStop :=
  { offset := gv inp aidx
    r := match out.getLast? with
      | some lg => lerpB lg.r (nbyte (gv inp (cidx+1)))
          ((gv inp aidx - lg.offset) / (gv inp cidx - lg.offset))
      | none => nbyte (gv inp (cidx+1))
    g := match out.getLast? with
      | some lg => lerpB lg.g (nbyte (gv inp (cidx+2)))
          ((gv inp aidx - lg.offset) / (gv inp cidx - lg.offset))
      | none => nbyte (gv inp (cidx+2))
    b := match out.getLast? with
      | some lg => lerpB lg.b (nbyte (gv inp (cidx+3)))
          ((gv inp aidx - lg.offset) / (gv inp cidx - lg.offset))
      | none => nbyte (gv inp (cidx+3))
    a := nbyte (gv inp (aidx+1)) }

/-- The main merge walk of `LottieGradient::populate`
(`for i < input.count`, breaking when either track is exhausted); the
fuel is the `for` counter.  Returns the final `cidx`, `aidx` and the
emitted stops. -/
def mergeLoop (inp : List ℚ) (clast : ℕ) : ℕ → ℕ → ℕ → List GStop → ℕ × ℕ × List GStop
  | 0, cidx, aidx, out => (cidx, aidx, out)
  | fuel + 1, cidx, aidx, out =>
      if cidx = clast ∨ aidx = inp.length then (cidx, aidx, out)
      else if gv inp cidx = gv inp aidx then
        mergeLoop inp clast fuel (cidx + 4) (aidx + 2) (out ++ [mkBoth inp cidx aidx])
      else if gv inp cidx < gv inp aidx then
        mergeLoop inp clast fuel (cidx + 4) aidx (out ++ [mkColorStop inp cidx aidx out])
      else
        mergeLoop inp clast fuel cidx (aidx + 2) (out ++ [mkAlphaStop inp cidx aidx out])

/-- The "color remains" tail: `while (cidx + 3 < clast)`, holding the
last emitted alpha (255 when nothing was emitted). -/
def colorTailLoop (inp : List ℚ) (clast : ℕ) : ℕ → ℕ → List GStop → List GStop
  | 0, _, out => out
  | fuel + 1, cidx, out =>
      if cidx + 3 < clast then
        colorTailLoop inp clast fuel (cidx + 4)
          (out ++ [⟨gv inp cidx, nbyte (gv inp (cidx+1)), nbyte (gv inp (cidx+2)),
            nbyte (gv inp (cidx+3)),
            match out.getLast? with | some lg => lg.a | none => 255⟩])
      else out

/-- The "alpha remains" tail: `while (aidx < input.count)`, holding the
last emitted color channels (white when nothing was emitted). -/
def alphaTailLoop (inp : List ℚ) : ℕ → ℕ → List GStop → List GStop
  | 0, _, out => out
  | fuel + 1, aidx, out =>
      if aidx < inp.length then
        alphaTailLoop inp fuel (aidx + 2)
          (out ++ [⟨gv inp aidx,
            (match out.getLast? with | some lg => lg.r | none => 255),
            (match out.getLast? with | some lg => lg.g | none => 255),
            (match out.getLast? with | some lg => lg.b | none => 255),
            nbyte (gv inp (aidx+1))⟩])
      else out

/-- `LottieGradient::populate`: `clast = min(count*4, input.count)`,
`cidx = 0`, `aidx = clast`; the merge walk, then both tail loops.  The
tail fuels (`count` and `input.count`) dominate the loops' index
advances of 4 and 2. -/
def populate (inp : List ℚ) (count : ℕ) : List GStop :=
  alphaTailLoop inp inp.length
    (mergeLoop inp (min (4 * count) inp.length) inp.length 0 (min (4 * count) inp.length) []).2.1
    (colorTailLoop inp (min (4 * count) inp.length) count
      (mergeLoop inp (min (4 * count) inp.length) inp.length 0 (min (4 * count) inp.length) []).1
      (mergeLoop inp (min (4 * count) inp.length) inp.length 0 (min (4 * count) inp.length) []).2.2)

/-! ## Lottie text-follow-path sampler (`LottieTextFollowPath::position`)

The path is a flattened command/point stream; the sampler keeps a cursor
(`cmds`/`pts` pointers, remaining command count, accumulated length,
subpath start).  The curve-math primitives (`tvg::length`, `Bezier`'s
`length`/`at`/`angle`, `atan2`, `cos`, `sin`, `deg2rad`) are external
collaborators (not under the provided sources; the spec lists them as
supplied by an external curve-math collaborator), so they are bundled in
a record of abstract operations and every theorem holds for all of them.
Lengths are exact rationals. -/

inductive PathCmd where
  | moveTo
  | lineTo
  | cubicTo
  | close
  deriving Repr, DecidableEq

/-- A 2D point. -/
def PPoint : Type := ℚ × ℚ

instance : DecidableEq PPoint := by unfold PPoint; infer_instance

instance : Inhabited PPoint := ⟨((0:ℚ), (0:ℚ))⟩

/-- The external curve-math collaborators. -/
structure CurveOps where
  dist : PPoint → PPoint → ℚ
  bezLength : PPoint → PPoint → PPoint → PPoint → ℚ
  bezT : PPoint → PPoint → PPoint → PPoint → ℚ → ℚ → ℚ
  bezAt : PPoint → PPoint → PPoint → PPoint → ℚ → PPoint
  bezAngle : PPoint → PPoint → PPoint → PPoint → ℚ → ℚ
  atan2 : ℚ → ℚ → ℚ
  cosQ : ℚ → ℚ
  sinQ : ℚ → ℚ
  d2r : ℚ → ℚ

/-- The sampler state (`LottieTextFollowPath`): command/point streams,
cursor indices, remaining command count (`cmdsCnt`), subpath start index
(`start`), accumulated and total arc length. -/
structure FollowPath where
  cmds : List PathCmd
  pts : List PPoint
  ci : ℕ
  pi : ℕ
  startPi : ℕ
  currentLen : ℚ
  totalLen : ℚ
  cnt : ℕ
  deriving DecidableEq

/-- Read of a point, total via a default. -/
def ptAt (fp : FollowPath) (i : ℕ) : PPoint := fp.pts.getD i ((0:ℚ), (0:ℚ))

/-- Read of the current command (in-range whenever `cnt > 0`). -/
def cmdAt (fp : FollowPath) (i : ℕ) : PathCmd := fp.cmds.getD i PathCmd.close

/-- The `shift` lambda: advance the cursor over one command (`MoveTo`
also records the new subpath start), `++cmds; --cmdsCnt`. -/
def shiftCursor (fp : FollowPath) : FollowPath :=
  match cmdAt fp fp.ci with
  | PathCmd.moveTo =>
      { fp with startPi := fp.pi, pi := fp.pi + 1, ci := fp.ci + 1, cnt := fp.cnt - 1 }
  | PathCmd.lineTo => { fp with pi := fp.pi + 1, ci := fp.ci + 1, cnt := fp.cnt - 1 }
  | PathCmd.cubicTo => { fp with pi := fp.pi + 3, ci := fp.ci + 1, cnt := fp.cnt - 1 }
  | PathCmd.close => { fp with ci := fp.ci + 1, cnt := fp.cnt - 1 }

/-- The `length` lambda: arc length of the current command's segment. -/
def segLen (ops : CurveOps) (fp : FollowPath) : ℚ :=
  match cmdAt fp fp.ci with
  | PathCmd.moveTo => 0
  | PathCmd.lineTo => ops.dist (ptAt fp (fp.pi - 1)) (ptAt fp fp.pi)
  | PathCmd.cubicTo =>
      ops.bezLength (ptAt fp (fp.pi - 1)) (ptAt fp fp.pi)
        (ptAt fp (fp.pi + 1)) (ptAt fp (fp.pi + 2))
  | PathCmd.close => ops.dist (ptAt fp (fp.pi - 1)) (ptAt fp fp.startPi)

/-- `split(dLen, lenSearched, angle)`: only the cubic case produces a
point; the other cases set the angle and return the default `{}`. -/
def splitSeg (ops : CurveOps) (fp : FollowPath) (dLen lenSearched _angle : ℚ) :
    PPoint × ℚ :=
  match cmdAt fp fp.ci with
  | PathCmd.moveTo => (((0:ℚ), (0:ℚ)), 0)
  | PathCmd.lineTo =>
      let p0 := ptAt fp (fp.pi - 1)
      let p1 := ptAt fp fp.pi
      (((0:ℚ), (0:ℚ)), ops.atan2 (p1.2 - p0.2) (p1.1 - p0.1))
  | PathCmd.cubicTo =>
      let p0 := ptAt fp (fp.pi - 1)
      let p1 := ptAt fp fp.pi
      let p2 := ptAt fp (fp.pi + 1)
      let p3 := ptAt fp (fp.pi + 2)
      let t := ops.bezT p0 p1 p2 p3 (lenSearched - fp.currentLen) dLen
      (ops.bezAt p0 p1 p2 p3 t, ops.d2r (ops.bezAngle p0 p1 p2 p3 t))
  | PathCmd.close =>
      let p0 := ptAt fp (fp.pi - 1)
      let p1 := ptAt fp fp.startPi
      (((0:ℚ), (0:ℚ)), ops.atan2 (p1.2 - p0.2) (p1.1 - p0.1))

/-- One walk step: `shift()` then `currentLen += dLen`. -/
def advanceCursor (ops : CurveOps) (fp : FollowPath) : FollowPath :=
  { shiftCursor fp with currentLen := fp.currentLen + segLen ops fp }

/-- The main walk `while (cmdsCnt > 0)`: the recursion argument is the
remaining command count (`position` passes `fp.cnt`), which the source
decrements every iteration — this structural recursion is exactly the
loop's termination argument; exhausting it returns the default `{}`. -/
def walkLoop (ops : CurveOps) : ℕ → FollowPath → ℚ → ℚ → PPoint × ℚ
  | 0, _, _, angle => (((0:ℚ), (0:ℚ)), angle)
  | n + 1, fp, lenSearched, angle =>
      if fp.currentLen + segLen ops fp < lenSearched then
        walkLoop ops n (advanceCursor ops fp) lenSearched angle
      else splitSeg ops fp (segLen ops fp) lenSearched angle

/-- `while (lenSearched < 0.0f) lenSearched += totalLen;` with explicit
fuel: `none` models the loop still running when the fuel is exhausted. -/
def wrapIter : ℕ → ℚ → ℚ → Option ℚ
  | 0, len, _ => if len < 0 then none else some len
  | fuel + 1, len, total =>
      if len < 0 then wrapIter fuel (len + total) total else some len

/-- `while (lenSearched > totalLen) lenSearched -= totalLen;` with
explicit fuel. -/
def wrapIterDown : ℕ → ℚ → ℚ → Option ℚ
  | 0, len, total => if total < len then none else some len
  | fuel + 1, len, total =>
      if total < len then wrapIterDown fuel (len - total) total else some len

/-- Cursor reset: `pts = path.pts.data; cmds = path.cmds.data;
cmdsCnt = path.cmds.count; currentLen = 0.0f;` (`start` is untouched). -/
def resetCursor (fp : FollowPath) : FollowPath :=
  { fp with ci := 0, pi := 0, cnt := fp.cmds.length, currentLen := 0 }

/-- `while (cmdsCnt > 1) shift();` of the beyond-the-end open branch. -/
def walkToLast : ℕ → FollowPath → FollowPath
  | 0, fp => fp
  | fuel + 1, fp => if 1 < fp.cnt then walkToLast fuel (shiftCursor fp) else fp

/-- The before-the-start open branch (`lenSearched ≤ 0`, path not
closed): guarded linear extrapolation backward from the next segment's
initial tangent. -/
def beforeStartOpen (ops : CurveOps) (fp : FollowPath) (len angle : ℚ) : PPoint × ℚ :=
  if fp.cmds.length ≤ fp.ci + 1 then (ptAt fp fp.startPi, angle)
  else
    match cmdAt fp (fp.ci + 1) with
    | PathCmd.lineTo =>
        let p0 := ptAt fp fp.pi
        let p1 := ptAt fp (fp.pi + 1)
        let ang := ops.atan2 (p1.2 - p0.2) (p1.1 - p0.1)
        ((p0.1 + len * ops.cosQ ang, p0.2 + len * ops.sinQ ang), ang)
    | PathCmd.cubicTo =>
        let ang := ops.d2r (ops.bezAngle (ptAt fp fp.pi) (ptAt fp (fp.pi + 1))
          (ptAt fp (fp.pi + 2)) (ptAt fp (fp.pi + 3)) (1 / 10000))
        let p0 := ptAt fp fp.pi
        ((p0.1 + len * ops.cosQ ang, p0.2 + len * ops.sinQ ang), ang)
    | _ => (ptAt fp fp.startPi, 0)

/-- The beyond-the-end open branch: advance to the last command, then
linearly extrapolate forward from its final tangent. -/
def beyondEndOpen (ops : CurveOps) (fp0 : FollowPath) (lenSearched _angle : ℚ) :
    PPoint × ℚ :=
  let fp := walkToLast fp0.cnt fp0
  match cmdAt fp fp.ci with
  | PathCmd.moveTo => (ptAt fp fp.pi, 0)
  | PathCmd.lineTo =>
      let len := lenSearched - fp.totalLen
      let p0 := ptAt fp (fp.pi - 1)
      let p1 := ptAt fp fp.pi
      let ang := ops.atan2 (p1.2 - p0.2) (p1.1 - p0.1)
      ((p1.1 + len * ops.cosQ ang, p1.2 + len * ops.sinQ ang), ang)
  | PathCmd.cubicTo =>
      let len := lenSearched - fp.totalLen
      let ang := ops.d2r (ops.bezAngle (ptAt fp (fp.pi - 1)) (ptAt fp fp.pi)
        (ptAt fp (fp.pi + 1)) (ptAt fp (fp.pi + 2)) (999 / 1000))
      let p2 := ptAt fp (fp.pi + 2)
      ((p2.1 + len * ops.cosQ ang, p2.2 + len * ops.sinQ ang), ang)
  | PathCmd.close =>
      let len := lenSearched - fp.totalLen
      let p0 := ptAt fp (fp.pi - 1)
      let p1 := ptAt fp fp.startPi
      let ang := ops.atan2 (p1.2 - p0.2) (p1.1 - p0.1)
      ((p0.1 + len * ops.cosQ ang, p0.2 + len * ops.sinQ ang), ang)

/-- `position`, final stage: reset when the query falls behind the
cursor, then the main walk. -/
def positionWalk (ops : CurveOps) (fp : FollowPath) (len angle : ℚ) :
    Option (PPoint × ℚ) :=
  if len < fp.currentLen then
    some (walkLoop ops (resetCursor fp).cnt (resetCursor fp) len angle)
  else some (walkLoop ops fp.cnt fp len angle)

/-- `position`, second stage: the beyond-the-end handling, then the
walk.  Closed paths wrap by repeated subtraction (fuelled); open paths
extrapolate forward. -/
def positionMain (ops : CurveOps) (fuel : ℕ) (fp : FollowPath) (len angle : ℚ) :
    Option (PPoint × ℚ) :=
  if fp.totalLen ≤ len then
    if fp.cmds.getLast? = some PathCmd.close then
      match wrapIterDown fuel len fp.totalLen with
      | none => none
      | some len2 => positionWalk ops (resetCursor fp) len2 angle
    else some (beyondEndOpen ops fp len angle)
  else positionWalk ops fp len angle

/-- `LottieTextFollowPath::position(lenSearched, angle)`.  The fuel
feeds only the two wrap `while` loops; `none` models non-termination. -/
def position (ops : CurveOps) (fuel : ℕ) (fp : FollowPath) (len angle : ℚ) :
    Option (PPoint × ℚ) :=
  if len ≤ 0 then
    if fp.cmds.getLast? = some PathCmd.close then
      match wrapIter fuel len fp.totalLen with
      | none => none
      | some len1 => positionMain ops fuel (resetCursor fp) len1 angle
    else some (beforeStartOpen ops fp len angle)
  else positionMain ops fuel fp len angle

/-- "The walk exhausts the remaining commands without reaching the
requested length": at every remaining step the accumulated length plus
the segment length stays below the target. -/
def walkAllBelow (ops : CurveOps) : ℕ → FollowPath → ℚ → Prop
  | 0, _, _ => True
  | n + 1, fp, len =>
      fp.currentLen + segLen ops fp < len ∧ walkAllBelow ops n (advanceCursor ops fp) len

/-- All-zero collaborators (used for the degenerate-path instance). -/
def opsZero : CurveOps :=
  ⟨fun _ _ => 0, fun _ _ _ _ => 0, fun _ _ _ _ _ _ => 0,
    fun _ _ _ _ _ => ((0:ℚ), (0:ℚ)), fun _ _ _ _ _ => 0,
    fun _ _ => 0, fun _ => 0, fun _ => 0, fun _ => 0⟩

/-- A degenerate closed path of total length zero: one `MoveTo` and one
`Close`, all points equal. -/
def fpDeg : FollowPath :=
  ⟨[PathCmd.moveTo, PathCmd.close], [((0:ℚ), (0:ℚ))], 0, 0, 0, 0, 0, 2⟩

/-- A closed path of total length one: `MoveTo`, a unit `LineTo`, and a
`Close` back onto the start point. -/
def fpUnit : FollowPath :=
  ⟨[PathCmd.moveTo, PathCmd.lineTo, PathCmd.close],
    [((0:ℚ), (0:ℚ)), ((1:ℚ), (0:ℚ))], 0, 0, 0, 0, 1, 3⟩

/-! ## Helper lemmas about `Int.tmod` (C++ `%`) -/

lemma neg_tmod_eq (a b : ℤ) : (-a).tmod b = -(a.tmod b) := by
  have h1 := Int.tdiv_add_tmod a b
  have h2 := Int.tdiv_add_tmod (-a) b
  rw [Int.neg_tdiv] at h2
  linarith

lemma tmod_gt_neg (a : ℤ) {b : ℤ} (hb : 0 < b) : -b < a.tmod b := by
  rcases le_or_lt 0 a with h | h
  · have := Int.tmod_nonneg b h
    linarith
  · have h1 : (-a).tmod b < b := Int.tmod_lt_of_pos (-a) hb
    have h2 := neg_tmod_eq a b
    linarith

/-- `C1`..-independent helper: `tmod` and `emod` agree after the
negative-remainder fixup. -/
lemma wrap_eq_emod (n idx : ℤ) (hn : 0 < n) :
    (if Int.tmod idx n < 0 then n + Int.tmod idx n else Int.tmod idx n)
      = idx % n := by
  have hlt : Int.tmod idx n < n := Int.tmod_lt_of_pos idx hn
  have hgt : -n < Int.tmod idx n := tmod_gt_neg idx hn
  have hdec : idx = n * idx.tdiv n + Int.tmod idx n := (Int.tdiv_add_tmod idx n).symm
  have hmod : idx % n = Int.tmod idx n % n := by
    conv_lhs => rw [hdec]
    rw [add_comm]
    exact Int.add_mul_emod_self_left _ _ _
  by_cases hneg : Int.tmod idx n < 0
  · simp only [hneg, if_pos]
    have key : (Int.tmod idx n + n * 1) % n = Int.tmod idx n % n :=
      Int.add_mul_emod_self_left _ _ _
    have h0 : (0:ℤ) ≤ Int.tmod idx n + n * 1 := by linarith
    have h1 : Int.tmod idx n + n * 1 < n := by linarith
    have val : (Int.tmod idx n + n * 1) % n = Int.tmod idx n + n * 1 :=
      Int.emod_eq_of_lt h0 h1
    rw [hmod, ← key, val]
    ring
  · simp only [hneg, if_neg, not_false_iff]
    push_neg at hneg
    rw [hmod, Int.emod_eq_of_lt hneg hlt]

/-! ## Claim theorems: tritone and boundary remap -/

/-- C2: Tritone breakpoint continuity: at luma exactly 128 the below-128
branch formula (factor `min(2*128,255) = 255`) and the at-or-above-128
branch formula (factor `2*(128-128) = 0`) of `_trintone` produce the same
output color, for every shadow/midtone/highlight triple; `_trintone`
itself takes the `l ≥ 128` branch at 128. -/
theorem trintone_continuous_at_128 (s m h : Col) :
    trintoneBelow s m h 128 = trintoneAbove s m h 128 ∧
      trintone s m h 128 = trintoneAbove s m h 128 := by
  constructor
  · simp only [trintoneBelow, trintoneAbove, ALPHA_BLEND, addCol]
    norm_num [Nat.mul_div_cancel]
  · simp [trintone]

/-- C3: boundary remap correctness: for every `end ≥ 0` and every integer
index, `_gaussianEdgeExtend` returns the index clamped into `[0, end]`,
`_gaussianEdgeWrap` returns the mathematical (non-negative) modulus by
`end + 1`, and both results lie in `[0, end]`. -/
theorem gaussian_remap_correct (e idx : ℤ) (he : 0 ≤ e) :
    gaussianEdgeExtend e idx = max 0 (min idx e) ∧
      gaussianEdgeWrap e idx = idx % (e + 1) ∧
      (0 ≤ gaussianEdgeExtend e idx ∧ gaussianEdgeExtend e idx ≤ e) ∧
      (0 ≤ gaussianEdgeWrap e idx ∧ gaussianEdgeWrap e idx ≤ e) := by
  have hn : (0:ℤ) < e + 1 := by linarith
  have hwrap : gaussianEdgeWrap e idx = idx % (e + 1) := by
    unfold gaussianEdgeWrap
    exact wrap_eq_emod (e + 1) idx hn
  refine ⟨?_, hwrap, ?_, ?_⟩
  · unfold gaussianEdgeExtend
    rcases lt_or_le idx 0 with h | h
    · rw [if_pos h]
      omega
    · rw [if_neg (by omega)]
      rcases lt_or_le e idx with h2 | h2
      · rw [if_pos h2]
        omega
      · rw [if_neg (by omega)]
        omega
  · unfold gaussianEdgeExtend
    split <;> (try split) <;> omega
  · rw [hwrap]
    have h1 : 0 ≤ idx % (e + 1) := Int.emod_nonneg idx (by omega)
    have h2 : idx % (e + 1) < e + 1 := Int.emod_lt_of_pos idx hn
    omega

/-- Witness for C3 at `end = 2`, `idx = -5`: clamp gives 0, wrap gives
`(-5) mod 3 = 1`. -/
theorem gaussian_remap_correct_witness :
    (0:ℤ) ≤ 2 ∧
      (gaussianEdgeExtend 2 (-5) = max 0 (min (-5) 2) ∧
        gaussianEdgeWrap 2 (-5) = (-5) % (2 + 1) ∧
        (0 ≤ gaussianEdgeExtend 2 (-5) ∧ gaussianEdgeExtend 2 (-5) ≤ 2) ∧
        (0 ≤ gaussianEdgeWrap 2 (-5) ∧ gaussianEdgeWrap 2 (-5) ≤ 2)) :=
  ⟨by norm_num, gaussian_remap_correct 2 (-5) (by norm_num)⟩

/-- C10 counterexample: at maximum luma 255 with midtone = highlight =
black, `_trintone` produces exactly the (pure) highlight color, refuting
"the pure highlight color is never produced exactly". -/
theorem trintone_pure_highlight_reached :
    trintone ⟨10, 20, 30, 255⟩ ⟨0, 0, 0, 0⟩ ⟨0, 0, 0, 0⟩ 255
      = Col.mk 0 0 0 0 := by decide

/-- C10 amended: for every luma `l ≤ 255` the `_trintone` blend factor
stays within `[0, 254]` (so the interpolation weights are valid 8-bit
values), and at maximum luma 255 the midtone weight `255 - a` is 1 (a
nonzero *weight*; the truncating `ALPHA_BLEND` can still reduce the
midtone contribution to zero, so the pure highlight color can be
produced, e.g. when midtone and highlight are both black). -/
theorem trintone_factor_bounds (l : ℕ) (hl : l ≤ 255) :
    trintoneFactor l ≤ 254 ∧ 255 - trintoneFactor 255 = 1 := by
  constructor
  · unfold trintoneFactor
    split <;> omega
  · decide

/-- Witness for the C10 amended theorem at `l = 255`. -/
theorem trintone_factor_bounds_witness :
    255 ≤ 255 ∧ (trintoneFactor 255 ≤ 254 ∧ 255 - trintoneFactor 255 = 1) :=
  ⟨by norm_num, trintone_factor_bounds 255 (by norm_num)⟩

lemma log2p_spec : ∀ fuel n, 1 ≤ n → n < 2 ^ fuel →
    2 ^ log2p fuel n ≤ n ∧ n < 2 ^ (log2p fuel n + 1) := by
  intro fuel
  induction fuel with
  | zero => intro n h1 h2; omega
  | succ f ih =>
      intro n h1 h2
      rw [log2p]
      by_cases h : 2 ≤ n
      · rw [if_pos h]
        have hhalf1 : 1 ≤ n / 2 := by omega
        have hhalf2 : n / 2 < 2 ^ f := by
          have h2f : (2:ℕ) ^ (f + 1) = 2 ^ f * 2 := by ring
          omega
        obtain ⟨hlo, hhi⟩ := ih (n / 2) hhalf1 hhalf2
        constructor
        · have : 2 ^ (log2p f (n / 2) + 1) = 2 * 2 ^ log2p f (n / 2) := by ring
          rw [this]
          omega
        · have : 2 ^ (log2p f (n / 2) + 1 + 1) = 2 * 2 ^ (log2p f (n / 2) + 1) := by ring
          rw [this]
          omega
      · rw [if_neg h]
        simp only [pow_zero, pow_one]
        omega

lemma rne_ge (a b : ℕ) (hb : 0 < b) : 2 * a ≤ 2 * (b * rne a b) + b := by
  have hdm : b * (a / b) + a % b = a := Nat.div_add_mod a b
  have hr : a % b < b := Nat.mod_lt _ hb
  have e : b * (a / b + 1) = b * (a / b) + b := by ring
  unfold rne
  repeat' split
  all_goals omega

lemma rne_le (a b : ℕ) (hb : 0 < b) : 2 * (b * rne a b) ≤ 2 * a + b := by
  have hdm : b * (a / b) + a % b = a := Nat.div_add_mod a b
  have hr : a % b < b := Nat.mod_lt _ hb
  have e : b * (a / b + 1) = b * (a / b) + b := by ring
  unfold rne
  repeat' split
  all_goals omega

lemma floatMulTrunc_main (P t : ℕ) (h0 : P ≠ 0) (h24 : ¬ nlog2 P ≤ 23)
    (hts : ¬ t ≤ nlog2 P - 23) :
    floatMulTrunc P t = rne P (2 ^ (nlog2 P - 23)) / 2 ^ (t - (nlog2 P - 23)) := by
  unfold floatMulTrunc
  rw [if_neg h0, if_neg h24, if_neg hts]

lemma f32recipMant_one : f32recipMant 1 = 2 ^ 24 := by decide

set_option maxHeartbeats 1000000 in
/-- Core flat-field lemma.  Unconditionally the float divide and the
truncating cast land on `c` or `c - 1`; when the binary32 reciprocal
mantissa does not undershoot (`n * m >= 2^t`, i.e. `fl(1/n) >= 1/n`) the
result is exactly `c`, for every `1 <= c <= 255`. -/
lemma flatPixel_bounds (d c : ℕ) (hc1 : 1 ≤ c) (hc : c ≤ 255)
    (hn31 : 2 * d + 1 < 2 ^ 31) :
    (flatPixel d c = c ∨ flatPixel d c + 1 = c) ∧
      (2 ^ (24 + nlog2 (2 * d + 1)) ≤ (2 * d + 1) * f32recipMant (2 * d + 1) →
        flatPixel d c = c) := by
  set n := 2 * d + 1 with hn_def
  set s := nlog2 n with hs_def
  set t := 24 + s with ht_def
  set m := f32recipMant n with hm_def
  have hn1 : 1 ≤ n := by omega
  have hns : 2 ^ s ≤ n ∧ n < 2 ^ (s + 1) := by
    have h64 : n < 2 ^ 64 := lt_of_lt_of_le hn31 (by norm_num)
    exact log2p_spec 64 n hn1 h64
  have hs30 : s ≤ 30 := by
    by_contra hcon
    push_neg at hcon
    have : (2:ℕ) ^ 31 ≤ 2 ^ s := Nat.pow_le_pow_right (by norm_num) hcon
    omega
  set P := n * c * m with hP_def
  have hPc : P = c * (n * m) := by rw [hP_def]; ring
  have ht24 : (2:ℕ) ^ 24 ≤ 2 ^ t := Nat.pow_le_pow_right (by norm_num) (by omega)
  have hts2 : (2:ℕ) ^ t = 2 ^ 24 * 2 ^ s := by rw [ht_def, pow_add]
  -- lower bound on 2P from the reciprocal rounding (general, no condition)
  have hm_ge : 2 * 2 ^ t ≤ 2 * (n * m) + n := rne_ge (2 ^ t) n (by omega)
  have hP_lo2 : 2 * (c * 2 ^ t) ≤ 2 * P + c * n := by
    have h1 : c * (2 * 2 ^ t) ≤ c * (2 * (n * m) + n) := Nat.mul_le_mul_left c hm_ge
    have h2 : c * (2 * (n * m) + n) = 2 * (c * (n * m)) + c * n := by ring
    have h3 : c * (2 * 2 ^ t) = 2 * (c * 2 ^ t) := by ring
    omega
  have hcn : c * n < 2 ^ (t - 15) := by
    have e1 : (2:ℕ) ^ (t - 15) = 2 ^ 9 * 2 ^ s := by
      rw [← pow_add]
      congr 1
      omega
    have h4 : c * n ≤ 255 * n := Nat.mul_le_mul_right n hc
    have h5 : 255 * n ≤ 255 * 2 ^ (s + 1) := Nat.mul_le_mul_left 255 (le_of_lt hns.2)
    have h6 : 255 * 2 ^ (s + 1) = 510 * 2 ^ s := by ring
    have e3 : 510 * 2 ^ s < 2 ^ 9 * 2 ^ s := by
      have hp : (0:ℕ) < 2 ^ s := by positivity
      have : (510:ℕ) < 2 ^ 9 := by norm_num
      exact Nat.mul_lt_mul_of_lt_of_le this (le_refl _) hp
    omega
  have htm15 : (2:ℕ) ^ (t - 15) ≤ 2 ^ t := Nat.pow_le_pow_right (by norm_num) (by omega)
  have hP24 : 2 ^ 24 ≤ P := by
    rcases Nat.eq_zero_or_pos s with hs0 | hs1
    · -- s = 0 forces n = 1, where the reciprocal is exact: m = 2^24
      have hn_eq : n = 1 := by
        have h2 : n < 2 ^ (s + 1) := hns.2
        rw [hs0] at h2
        norm_num at h2
        omega
      have hm_eq : m = 2 ^ 24 := by
        rw [hm_def, hn_eq]
        exact f32recipMant_one
      have hP_eq : P = c * 2 ^ 24 := by rw [hPc, hn_eq, hm_eq]; ring
      have h7 : 1 * 2 ^ 24 ≤ c * 2 ^ 24 := Nat.mul_le_mul_right _ hc1
      omega
    · -- s >= 1: 2P > 2*2^t - 2^(t-15) >= 2^t >= 2^25
      have h8 : 2 * (1 * 2 ^ t) ≤ 2 * (c * 2 ^ t) := by
        have := Nat.mul_le_mul_right (2 ^ t) hc1
        omega
      have h9 : (2:ℕ) ^ 25 ≤ 2 ^ t := Nat.pow_le_pow_right (by norm_num) (by omega)
      omega
  have hP0 : P ≠ 0 := by
    have : (0:ℕ) < 2 ^ 24 := by positivity
    omega
  have hm_le : 2 * (n * m) ≤ 2 * 2 ^ t + n := rne_le (2 ^ t) n (by omega)
  have hP_hi : 2 * P ≤ 2 * (c * 2 ^ t) + 510 * 2 ^ s := by
    have h1 : 2 * P = c * (2 * (n * m)) := by rw [hPc]; ring
    have h2 : c * (2 * (n * m)) ≤ c * (2 * 2 ^ t + n) := Nat.mul_le_mul_left c hm_le
    have h3 : c * (2 * 2 ^ t + n) = c * (2 * 2 ^ t) + c * n := by ring
    have h4 : c * n ≤ 255 * n := Nat.mul_le_mul_right n hc
    have h5 : 255 * n ≤ 255 * 2 ^ (s + 1) := Nat.mul_le_mul_left 255 (le_of_lt hns.2)
    have h6 : 255 * 2 ^ (s + 1) = 510 * 2 ^ s := by ring
    have h7 : c * (2 * 2 ^ t) = 2 * (c * 2 ^ t) := by ring
    omega
  have hP_lt : P < 2 ^ (t + 8) := by
    have h8 : (2:ℕ) ^ (t + 8) = 256 * 2 ^ t := by rw [pow_add]; norm_num; ring
    have h9a : c * 2 ^ t ≤ 255 * 2 ^ t := Nat.mul_le_mul_right _ hc
    have h10 : 510 * 2 ^ s ≤ 2 ^ t := by
      have h11 : 510 * 2 ^ s ≤ 2 ^ 24 * 2 ^ s := Nat.mul_le_mul_right _ (by norm_num)
      omega
    omega
  set k := nlog2 P with hk_def
  have hPs : 2 ^ k ≤ P ∧ P < 2 ^ (k + 1) := by
    refine log2p_spec 64 P (by omega) ?_
    calc P < 2 ^ (t + 8) := hP_lt
    _ ≤ 2 ^ 64 := Nat.pow_le_pow_right (by norm_num) (by omega)
  have hk24 : 24 ≤ k := by
    by_contra hcon
    push_neg at hcon
    have : (2:ℕ) ^ (k + 1) ≤ 2 ^ 24 := Nat.pow_le_pow_right (by norm_num) (by omega)
    omega
  have hk_hi : k ≤ t + 7 := by
    by_contra hcon
    push_neg at hcon
    have : (2:ℕ) ^ (t + 8) ≤ 2 ^ k := Nat.pow_le_pow_right (by norm_num) (by omega)
    omega
  set sh := k - 23 with hsh_def
  have hsh1 : 1 ≤ sh := by omega
  have hsh_hi : sh ≤ t - 16 := by omega
  set X := 2 ^ (t - sh) with hX_def
  have hXsh : 2 ^ sh * X = 2 ^ t := by
    rw [hX_def, ← pow_add]
    congr 1
    omega
  have hX_pos : 0 < X := by positivity
  have hsh_pos : (0:ℕ) < 2 ^ sh := by positivity
  set q := rne P (2 ^ sh) with hq_def
  -- unconditional lower bound: (c-1) * X <= q, phrased without subtraction
  have hlow1 : c * X ≤ q + X := by
    have h1 : 2 * P ≤ 2 * (2 ^ sh * q) + 2 ^ sh := by
      rw [hq_def]
      exact rne_ge P (2 ^ sh) hsh_pos
    have h2 : 2 ^ sh * (2 * (c * X)) ≤ 2 ^ sh * (2 * (q + X) + 1) := by
      have e1 : 2 ^ sh * (2 * (c * X)) = 2 * (c * (2 ^ sh * X)) := by ring
      have e2 : 2 ^ sh * (2 * (q + X) + 1)
          = 2 * (2 ^ sh * q) + 2 ^ sh + 2 * (2 ^ sh * X) := by ring
      rw [e1, e2, hXsh]
      -- 2*(c*2^t) <= 2P + cn and cn < 2^(t-15) <= 2*2^t
      omega
    have h3 : 2 * (c * X) ≤ 2 * (q + X) + 1 := Nat.le_of_mul_le_mul_left h2 hsh_pos
    omega
  -- unconditional upper bound: q < (c+1) * X
  have hhigh : q < (c + 1) * X := by
    have h1 : 2 * (2 ^ sh * q) ≤ 2 * P + 2 ^ sh := by
      rw [hq_def]
      exact rne_le P (2 ^ sh) hsh_pos
    have hsh_le : (2:ℕ) ^ sh ≤ 2 ^ (t - 16) := Nat.pow_le_pow_right (by norm_num) hsh_hi
    have h510 : 510 * 2 ^ s < 2 ^ (t - 15) := by
      have e1 : (2:ℕ) ^ (t - 15) = 2 ^ 9 * 2 ^ s := by
        rw [← pow_add]
        congr 1
        omega
      have e3 : 510 * 2 ^ s < 2 ^ 9 * 2 ^ s := by
        have hp : (0:ℕ) < 2 ^ s := by positivity
        have : (510:ℕ) < 2 ^ 9 := by norm_num
        exact Nat.mul_lt_mul_of_lt_of_le this (le_refl _) hp
      omega
    have hsmall : 510 * 2 ^ s + 2 ^ (t - 16) < 2 * 2 ^ t := by
      have e1 : (2:ℕ) ^ (t - 15) = 2 * 2 ^ (t - 16) := by
        rw [← pow_succ']
        congr 1
        omega
      have e2 : (2:ℕ) ^ (t - 15) ≤ 2 ^ t := Nat.pow_le_pow_right (by norm_num) (by omega)
      omega
    have h2 : 2 * P + 2 ^ sh < 2 ^ sh * (2 * ((c + 1) * X)) := by
      have e1 : 2 ^ sh * (2 * ((c + 1) * X)) = 2 * (c * (2 ^ sh * X)) + 2 * (2 ^ sh * X) := by
        ring
      rw [e1, hXsh]
      omega
    have h3 : 2 ^ sh * (2 * q) < 2 ^ sh * (2 * ((c + 1) * X)) := by
      have e2 : 2 ^ sh * (2 * q) = 2 * (2 ^ sh * q) := by ring
      omega
    have h4 : 2 * q < 2 * ((c + 1) * X) := Nat.lt_of_mul_lt_mul_left h3
    omega
  have hstart : flatPixel d c = floatMulTrunc P t := by
    rw [hP_def, hm_def, ht_def, hs_def, hn_def]
    rfl
  have hbranch : flatPixel d c = q / X := by
    rw [hstart, floatMulTrunc_main P t hP0 (by omega) (by omega), ← hk_def, ← hsh_def,
      ← hq_def, ← hX_def]
  constructor
  · -- q / X is c or c - 1
    have hub : q / X < c + 1 := by
      rw [Nat.div_lt_iff_lt_mul hX_pos]
      exact hhigh
    have hlb : c ≤ q / X + 1 := by
      have : q / X + 1 = (q + X) / X := (Nat.add_div_right q hX_pos).symm
      rw [this, Nat.le_div_iff_mul_le hX_pos]
      exact hlow1
    rw [hbranch]
    omega
  · -- with the no-undershoot condition, exactly c
    intro hcond
    have hP_lo : c * 2 ^ t ≤ P := by
      rw [hPc]
      exact Nat.mul_le_mul_left c hcond
    have hlow : c * X ≤ q := by
      have h1 : 2 * P ≤ 2 * (2 ^ sh * q) + 2 ^ sh := by
        rw [hq_def]
        exact rne_ge P (2 ^ sh) hsh_pos
      have h2 : 2 ^ sh * (2 * (c * X)) ≤ 2 ^ sh * (2 * q + 1) := by
        have e1 : 2 ^ sh * (2 * (c * X)) = 2 * (c * (2 ^ sh * X)) := by ring
        have e2 : 2 ^ sh * (2 * q + 1) = 2 * (2 ^ sh * q) + 2 ^ sh := by ring
        rw [e1, e2, hXsh]
        omega
      have h3 : 2 * (c * X) ≤ 2 * q + 1 := Nat.le_of_mul_le_mul_left h2 hsh_pos
      omega
    rw [hbranch]
    exact Nat.div_eq_of_lt_le hlow hhigh

lemma recipCondAll_true : recipCondAll = true := by decide

lemma recipCond_of_lt (d : ℕ) (hd : d < 12) :
    2 ^ (24 + nlog2 (2 * d + 1)) ≤ (2 * d + 1) * f32recipMant (2 * d + 1) := by
  have h := recipCondAll_true
  unfold recipCondAll at h
  rw [List.all_eq_true] at h
  exact of_decide_eq_true (h d (List.mem_range.mpr hd))

lemma flatPixel_zero (d : ℕ) : flatPixel d 0 = 0 := by
  unfold flatPixel boxBlurValue floatMulTrunc
  simp

lemma initAcc_const (border : ℕ) (e : ℤ) (c d : ℕ) :
    initAcc border e (fun _ => c) d = (((2 * d + 1) * c : ℕ) : ℤ) := by
  unfold initAcc
  rw [Finset.sum_const, Finset.card_range]
  push_cast
  ring

lemma rowLoop_const (border : ℕ) (e : ℤ) (c d : ℕ) :
    ∀ wrem x, gaussianRowLoop border e (fun _ => c) d wrem x (((2 * d + 1) * c : ℕ) : ℤ)
      = List.replicate wrem (flatPixel d c) := by
  intro wrem
  induction wrem with
  | zero => intro x; rfl
  | succ w ih =>
      intro x
      rw [gaussianRowLoop]
      have hacc : ((((2 * d + 1) * c : ℕ) : ℤ) + ((c:ℕ) : ℤ) - ((c:ℕ) : ℤ))
          = (((2 * d + 1) * c : ℕ) : ℤ) := by ring
      simp only [hacc, ih, Int.toNat_natCast, List.replicate]
      rfl

lemma gaussianRow_const (border d w c : ℕ) :
    gaussianRow border d w (fun _ => c) = List.replicate w (flatPixel d c) := by
  unfold gaussianRow
  rw [initAcc_const, rowLoop_const]

/-- C4 amended: for every border policy, width `w`, radius `d`
(`2d+1 < 2^31`, the source's `int` range) and uniform channel value
`c ≤ 255` whose window sum `(2d+1)*c` stays below `2^24` — the domain
where the source's 32-bit accumulator cannot overflow and its
int-to-float conversion is exact, so the model is faithful — one
box-filter pass of `_gaussianFilter` over the constant field writes back
`c` or `c - 1` at every pixel; it writes back exactly `c` whenever the
binary32 reciprocal `1.0f/(2d+1)` does not round below the exact value
(true for all radii `d ≤ 11`, and 16 of the 20 radii `d ≤ 19`), but not
for every radius. -/
theorem gaussian_flat_field (border d w c : ℕ) (hd : 2 * d + 1 < 2 ^ 31) (hc : c ≤ 255)
    (_hacc : (2 * d + 1) * c < 2 ^ 24) :
    (∀ v ∈ gaussianRow border d w (fun _ => c), v = c ∨ v + 1 = c) ∧
      (2 ^ (24 + nlog2 (2 * d + 1)) ≤ (2 * d + 1) * f32recipMant (2 * d + 1) →
        gaussianRow border d w (fun _ => c) = List.replicate w c) := by
  rcases Nat.eq_zero_or_pos c with h0 | h1
  · subst h0
    rw [gaussianRow_const, flatPixel_zero]
    constructor
    · intro v hv
      left
      exact List.eq_of_mem_replicate hv
    · intro _
      rfl
  · obtain ⟨hb, hcond⟩ := flatPixel_bounds d c h1 hc hd
    rw [gaussianRow_const]
    constructor
    · intro v hv
      have := List.eq_of_mem_replicate hv
      omega
    · intro h
      rw [hcond h]

/-- C4 counterexample: one box-filter pass at radius `d = 20` over a
uniform field of value 1 writes back 0 at every pixel — the truncating
cast drops the value, refuting exact flat-field preservation for every
radius. -/
theorem gaussian_flat_cex : gaussianRow 0 20 2 (fun _ => 1) = [0, 0] := by
  rw [gaussianRow_const]
  rw [show flatPixel 20 1 = 0 from rfl]
  rfl

/-- Witness for C4's amended theorem at `border = 1`, `d = 3`, `w = 4`,
`c = 200` (window sum `7 * 200 = 1400 < 2^24`; the no-undershoot
condition holds at `d = 3`, so the pass is the identity on the flat
field). -/
theorem gaussian_flat_field_witness :
    (2 * 3 + 1 < 2 ^ 31 ∧ 200 ≤ 255 ∧ (2 * 3 + 1) * 200 < 2 ^ 24) ∧
      ((∀ v ∈ gaussianRow 1 3 4 (fun _ => 200), v = 200 ∨ v + 1 = 200) ∧
        (2 ^ (24 + nlog2 (2 * 3 + 1)) ≤ (2 * 3 + 1) * f32recipMant (2 * 3 + 1) →
          gaussianRow 1 3 4 (fun _ => 200) = List.replicate 4 200)) :=
  ⟨⟨by norm_num, by norm_num, by norm_num⟩,
    gaussian_flat_field 1 3 4 200 (by norm_num) (by norm_num) (by norm_num)⟩

/-- C6: out-of-canvas shadow is a no-op success. -/
theorem drop_shadow_out_of_canvas {σ : Type} (rest : σ → σ) (offx offy w h : ℤ)
    (st : σ) (hout : |offx| ≥ w ∨ |offy| ≥ h) :
    effectDropShadowRun rest offx offy w h st = (true, st) := by
  unfold effectDropShadowRun
  rw [if_pos hout]

/-- Witness for C6 at a concrete state and a pipeline that would change it. -/
theorem drop_shadow_out_of_canvas_witness :
    (|(5:ℤ)| ≥ 3 ∨ |(0:ℤ)| ≥ 4) ∧
      effectDropShadowRun (fun n => n + 1) 5 0 3 4 (7:ℕ) = (true, 7) :=
  ⟨Or.inl (by norm_num), drop_shadow_out_of_canvas (fun n => n + 1) 5 0 3 4 7
    (Or.inl (by norm_num))⟩

/-- C5: for angle 0, any positive integer distance D and the identity
transform, the computed shadow offset is (0, -D). -/
theorem drop_shadow_offset_up (D : ℕ) (hD : 0 < D) :
    dropShadowOffset D 0 (dropShadowScale 1 0) = (0, -(D:ℤ)) := by
  have hscale : dropShadowScale 1 0 = 1 := by
    unfold dropShadowScale
    norm_num
  have hrad : deg2rad (90 - 0) = Real.pi / 2 := by
    unfold deg2rad
    ring
  have hDpos : (0:ℝ) < (D:ℝ) := by exact_mod_cast hD
  unfold dropShadowOffset
  rw [if_pos hDpos, hscale, hrad, Real.cos_pi_div_two, Real.sin_pi_div_two]
  have hx : truncToInt ((D:ℝ) * 1 * 0) = 0 := by
    rw [show ((D:ℝ) * 1 * 0) = 0 by ring]
    unfold truncToInt
    rw [if_pos (le_refl 0)]
    exact Int.floor_zero
  have hy : truncToInt (-1 * ((D:ℝ) * 1) * 1) = -(D:ℤ) := by
    rw [show (-1 * ((D:ℝ) * 1) * 1) = -(D:ℝ) by ring]
    unfold truncToInt
    rw [if_neg (not_le.mpr (by linarith : -(D:ℝ) < 0))]
    simp [Int.floor_natCast]
  rw [hx, hy]

/-- Witness for C5 at distance 3. -/
theorem drop_shadow_offset_up_witness :
    0 < 3 ∧ dropShadowOffset 3 0 (dropShadowScale 1 0) = (0, -(3:ℤ)) :=
  ⟨by norm_num, by
    have h := drop_shadow_offset_up 3 (by norm_num)
    exact_mod_cast h⟩

/-- C8: assign followed by reset restores every paired value, frees all
backups, and leaves the flag false. -/
theorem slot_assign_reset_roundtrip {α : Type} (sl : Slot α) (target : α)
    (hov : sl.overridden = false) (hb : ∀ p ∈ sl.pairs, p.backup = none) :
    slotReset (slotAssign sl target false) = sl := by
  cases sl with
  | mk ov pairs =>
      simp only at hov
      subst hov
      simp only at hb
      have h1 : slotAssign (Slot.mk false pairs) target false
          = Slot.mk true (pairs.map fun p => SlotPair.mk target (some p.value)) := rfl
      rw [h1]
      have h2 : slotReset (Slot.mk true (pairs.map fun p => SlotPair.mk target (some p.value)))
          = Slot.mk false ((pairs.map fun p => SlotPair.mk target (some p.value)).map
              fun p => SlotPair.mk (p.backup.getD p.value) none) := rfl
      rw [h2, List.map_map]
      congr 1
      conv_rhs => rw [← List.map_id pairs]
      apply List.map_congr_left
      intro p hp
      cases p with
      | mk pv pb =>
          have hpb : pb = none := hb _ hp
          subst hpb
          rfl

/-- Witness for C8 on a concrete two-pair natural-valued slot. -/
theorem slot_assign_reset_roundtrip_witness :
    (Slot.mk false [⟨5, none⟩, ⟨7, none⟩] : Slot ℕ).overridden = false ∧
      slotReset (slotAssign (Slot.mk false [⟨5, none⟩, ⟨7, none⟩] : Slot ℕ) 42 false)
        = Slot.mk false [⟨5, none⟩, ⟨7, none⟩] :=
  ⟨rfl, slot_assign_reset_roundtrip _ 42 rfl (by decide)⟩

/-- C1 (code bug): with recovery stride 3 and image stride 2, region
(0,0)-(1,2), full opacity and a white source, the claim says recovery
pixel (0,1) (flat address 3) receives the fill color, but the code
writes row 1 at the image stride offset (address 2) and leaves address 3
untouched; the valid flag is still set. -/
theorem effectFill_direct_stride_bug :
    ((effectFillDirect (fun _ => ⟨0,0,0,0⟩) (fun _ => ⟨255,255,255,255⟩)
        3 2 0 0 1 2 255 255 255 255 255).1 3 = ⟨0,0,0,0⟩) ∧
      (fillClaimValue (fun _ => ⟨0,0,0,0⟩) (fun _ => ⟨255,255,255,255⟩)
        3 2 0 0 0 1 255 255 255 255 255 = ⟨255,255,255,255⟩) ∧
      ((effectFillDirect (fun _ => ⟨0,0,0,0⟩) (fun _ => ⟨255,255,255,255⟩)
        3 2 0 0 1 2 255 255 255 255 255).2 = true) := by
  refine ⟨?_, ?_, rfl⟩
  · decide
  · decide

/-- Offsets are non-decreasing from each emitted stop to every later
one. -/
def stopsSorted (l : List GStop) : Prop :=
  List.Pairwise (fun g1 g2 => g1.offset ≤ g2.offset) l

instance (l : List GStop) : Decidable (stopsSorted l) := by
  unfold stopsSorted
  infer_instance

lemma sorted_append (out : List GStop) (x : GStop) (hs : stopsSorted out)
    (hb : ∀ g ∈ out, g.offset ≤ x.offset) : stopsSorted (out ++ [x]) := by
  unfold stopsSorted at *
  rw [List.pairwise_append]
  refine ⟨hs, List.pairwise_singleton _ _, ?_⟩
  intro a ha b hbmem
  rw [List.mem_singleton] at hbmem
  subst hbmem
  exact hb a ha

lemma mem_append_single {g x : GStop} {out : List GStop} (h : g ∈ out ++ [x]) :
    g ∈ out ∨ g = x := by
  rw [List.mem_append, List.mem_singleton] at h
  exact h

/-- Invariant of the merge walk: index shapes, sortedness, and the
last-emitted-offset bound against both track heads; with enough fuel the
walk ends only by exhausting a track. -/
lemma mergeLoop_inv (inp : List ℚ) (clast : ℕ) (hcl4 : clast % 4 = 0)
    (_hclen : clast ≤ inp.length) (hpar : (inp.length - clast) % 2 = 0)
    (hc : ∀ j, 4 * j + 4 < clast → gv inp (4 * j) ≤ gv inp (4 * j + 4))
    (ha : ∀ j, clast + 2 * j + 2 < inp.length →
      gv inp (clast + 2 * j) ≤ gv inp (clast + 2 * j + 2)) :
    ∀ fuel cidx aidx out,
      cidx % 4 = 0 → cidx ≤ clast → clast ≤ aidx → (aidx - clast) % 2 = 0 →
      aidx ≤ inp.length → stopsSorted out →
      (∀ g ∈ out, cidx < clast → g.offset ≤ gv inp cidx) →
      (∀ g ∈ out, aidx < inp.length → g.offset ≤ gv inp aidx) →
      (mergeLoop inp clast fuel cidx aidx out).1 % 4 = 0 ∧
      (mergeLoop inp clast fuel cidx aidx out).1 ≤ clast ∧
      clast ≤ (mergeLoop inp clast fuel cidx aidx out).2.1 ∧
      ((mergeLoop inp clast fuel cidx aidx out).2.1 - clast) % 2 = 0 ∧
      (mergeLoop inp clast fuel cidx aidx out).2.1 ≤ inp.length ∧
      stopsSorted (mergeLoop inp clast fuel cidx aidx out).2.2 ∧
      (∀ g ∈ (mergeLoop inp clast fuel cidx aidx out).2.2,
        (mergeLoop inp clast fuel cidx aidx out).1 < clast →
          g.offset ≤ gv inp (mergeLoop inp clast fuel cidx aidx out).1) ∧
      (∀ g ∈ (mergeLoop inp clast fuel cidx aidx out).2.2,
        (mergeLoop inp clast fuel cidx aidx out).2.1 < inp.length →
          g.offset ≤ gv inp (mergeLoop inp clast fuel cidx aidx out).2.1) ∧
      (clast + inp.length ≤ cidx + aidx + 2 * fuel →
        (mergeLoop inp clast fuel cidx aidx out).1 = clast ∨
          (mergeLoop inp clast fuel cidx aidx out).2.1 = inp.length) := by
  intro fuel
  induction fuel with
  | zero =>
      intro cidx aidx out h1 h2 h3 h4 h5 h6 h7 h8
      exact ⟨h1, h2, h3, h4, h5, h6, h7, h8,
        fun hfc => show cidx = clast ∨ aidx = inp.length by omega⟩
  | succ f ih =>
      intro cidx aidx out h1 h2 h3 h4 h5 h6 h7 h8
      rw [mergeLoop]
      by_cases hexit : cidx = clast ∨ aidx = inp.length
      · rw [if_pos hexit]
        exact ⟨h1, h2, h3, h4, h5, h6, h7, h8, fun _ => hexit⟩
      · rw [if_neg hexit]
        push_neg at hexit
        have hclt : cidx < clast := by omega
        have halt : aidx < inp.length := by omega
        by_cases heq : gv inp cidx = gv inp aidx
        · rw [if_pos heq]
          have hnext := ih (cidx + 4) (aidx + 2) (out ++ [mkBoth inp cidx aidx])
            (by omega) (by omega) (by omega) (by omega) (by omega)
            (sorted_append _ _ h6 (fun g hg => h7 g hg hclt))
            ?_ ?_
          · refine ⟨hnext.1, hnext.2.1, hnext.2.2.1, hnext.2.2.2.1, hnext.2.2.2.2.1,
              hnext.2.2.2.2.2.1, hnext.2.2.2.2.2.2.1, hnext.2.2.2.2.2.2.2.1, ?_⟩
            intro hfc
            exact hnext.2.2.2.2.2.2.2.2 (by omega)
          · -- bound against the new color head cidx + 4
            intro g hg hlt
            have hstep : gv inp cidx ≤ gv inp (cidx + 4) := by
              have hj := hc (cidx / 4) (by omega)
              have h44 : 4 * (cidx / 4) = cidx := by omega
              rw [h44] at hj
              exact hj
            rcases mem_append_single hg with hmem | hmem
            · exact le_trans (h7 g hmem hclt) hstep
            · rw [hmem]
              exact hstep
          · -- bound against the new alpha head aidx + 2
            intro g hg hlt
            have hstep : gv inp aidx ≤ gv inp (aidx + 2) := by
              have hj := ha ((aidx - clast) / 2) (by omega)
              have h22 : clast + 2 * ((aidx - clast) / 2) = aidx := by omega
              rw [h22] at hj
              exact hj
            rcases mem_append_single hg with hmem | hmem
            · exact le_trans (h8 g hmem halt) hstep
            · rw [hmem]
              show gv inp cidx ≤ gv inp (aidx + 2)
              rw [heq]
              exact hstep
        · rw [if_neg heq]
          by_cases hlt2 : gv inp cidx < gv inp aidx
          · rw [if_pos hlt2]
            have hnext := ih (cidx + 4) aidx (out ++ [mkColorStop inp cidx aidx out])
              (by omega) (by omega) (by omega) (by omega) (by omega)
              (sorted_append _ _ h6 (fun g hg => h7 g hg hclt))
              ?_ ?_
            · refine ⟨hnext.1, hnext.2.1, hnext.2.2.1, hnext.2.2.2.1, hnext.2.2.2.2.1,
                hnext.2.2.2.2.2.1, hnext.2.2.2.2.2.2.1, hnext.2.2.2.2.2.2.2.1, ?_⟩
              intro hfc
              exact hnext.2.2.2.2.2.2.2.2 (by omega)
            · intro g hg hlt
              have hstep : gv inp cidx ≤ gv inp (cidx + 4) := by
                have hj := hc (cidx / 4) (by omega)
                have h44 : 4 * (cidx / 4) = cidx := by omega
                rw [h44] at hj
                exact hj
              rcases mem_append_single hg with hmem | hmem
              · exact le_trans (h7 g hmem hclt) hstep
              · rw [hmem]
                exact hstep
            · intro g hg hlt
              rcases mem_append_single hg with hmem | hmem
              · exact h8 g hmem halt
              · rw [hmem]
                exact le_of_lt hlt2
          · rw [if_neg hlt2]
            have hgt : gv inp aidx < gv inp cidx := by
              rcases lt_trichotomy (gv inp cidx) (gv inp aidx) with h | h | h
              · exact absurd h hlt2
              · exact absurd h heq
              · exact h
            have hb8 : ∀ g ∈ out, g.offset ≤ gv inp aidx := fun g hg => h8 g hg halt
            have hnext := ih cidx (aidx + 2) (out ++ [mkAlphaStop inp cidx aidx out])
              (by omega) (by omega) (by omega) (by omega) (by omega)
              (sorted_append _ _ h6 hb8)
              ?_ ?_
            · refine ⟨hnext.1, hnext.2.1, hnext.2.2.1, hnext.2.2.2.1, hnext.2.2.2.2.1,
                hnext.2.2.2.2.2.1, hnext.2.2.2.2.2.2.1, hnext.2.2.2.2.2.2.2.1, ?_⟩
              intro hfc
              exact hnext.2.2.2.2.2.2.2.2 (by omega)
            · intro g hg hlt
              rcases mem_append_single hg with hmem | hmem
              · exact h7 g hmem hclt
              · rw [hmem]
                exact le_of_lt hgt
            · intro g hg hlt
              have hstep : gv inp aidx ≤ gv inp (aidx + 2) := by
                have hj := ha ((aidx - clast) / 2) (by omega)
                have h22 : clast + 2 * ((aidx - clast) / 2) = aidx := by omega
                rw [h22] at hj
                exact hj
              rcases mem_append_single hg with hmem | hmem
              · exact le_trans (h8 g hmem halt) hstep
              · rw [hmem]
                exact hstep


lemma colorTail_at_end (inp : List ℚ) (clast : ℕ) :
    ∀ fuel out, colorTailLoop inp clast fuel clast out = out := by
  intro fuel out
  cases fuel with
  | zero => rfl
  | succ f =>
      rw [colorTailLoop, if_neg (by omega)]

lemma alphaTail_at_end (inp : List ℚ) :
    ∀ fuel out, alphaTailLoop inp fuel inp.length out = out := by
  intro fuel out
  cases fuel with
  | zero => rfl
  | succ f =>
      rw [alphaTailLoop, if_neg (by omega)]

lemma colorTail_sorted (inp : List ℚ) (clast : ℕ) (hcl4 : clast % 4 = 0)
    (hc : ∀ j, 4 * j + 4 < clast → gv inp (4 * j) ≤ gv inp (4 * j + 4)) :
    ∀ fuel cidx out, cidx % 4 = 0 → stopsSorted out →
      (∀ g ∈ out, cidx < clast → g.offset ≤ gv inp cidx) →
      stopsSorted (colorTailLoop inp clast fuel cidx out) := by
  intro fuel
  induction fuel with
  | zero => intro cidx out _ h6 _; exact h6
  | succ f ih =>
      intro cidx out h1 h6 h7
      rw [colorTailLoop]
      by_cases hin : cidx + 3 < clast
      · rw [if_pos hin]
        refine ih (cidx + 4) _ (by omega)
          (sorted_append _ _ h6 (fun g hg => h7 g hg (by omega))) ?_
        intro g hg hlt
        have hstep : gv inp cidx ≤ gv inp (cidx + 4) := by
          have hj := hc (cidx / 4) (by omega)
          have h44 : 4 * (cidx / 4) = cidx := by omega
          rw [h44] at hj
          exact hj
        rcases mem_append_single hg with hmem | hmem
        · exact le_trans (h7 g hmem (by omega)) hstep
        · rw [hmem]
          exact hstep
      · rw [if_neg hin]
        exact h6

lemma alphaTail_sorted (inp : List ℚ) (clast : ℕ)
    (ha : ∀ j, clast + 2 * j + 2 < inp.length →
      gv inp (clast + 2 * j) ≤ gv inp (clast + 2 * j + 2)) :
    ∀ fuel aidx out, clast ≤ aidx → (aidx - clast) % 2 = 0 → stopsSorted out →
      (∀ g ∈ out, aidx < inp.length → g.offset ≤ gv inp aidx) →
      stopsSorted (alphaTailLoop inp fuel aidx out) := by
  intro fuel
  induction fuel with
  | zero => intro aidx out _ _ h6 _; exact h6
  | succ f ih =>
      intro aidx out h3 h4 h6 h8
      rw [alphaTailLoop]
      by_cases hin : aidx < inp.length
      · rw [if_pos hin]
        refine ih (aidx + 2) _ (by omega) (by omega)
          (sorted_append _ _ h6 (fun g hg => h8 g hg hin)) ?_
        intro g hg hlt
        have hstep : gv inp aidx ≤ gv inp (aidx + 2) := by
          have hj := ha ((aidx - clast) / 2) (by omega)
          have h22 : clast + 2 * ((aidx - clast) / 2) = aidx := by omega
          rw [h22] at hj
          exact hj
        rcases mem_append_single hg with hmem | hmem
        · exact le_trans (h8 g hmem hin) hstep
        · rw [hmem]
          exact hstep
      · rw [if_neg hin]
        exact h6

/-- C9: for every interleaved input whose color track (4 floats per
stop) and alpha track (2 floats per stop) each have non-decreasing
offsets, the stop list produced by `LottieGradient::populate` has
non-decreasing offsets, through the main merge walk and both
tail-emission loops. -/
theorem gradient_populate_monotone (inp : List ℚ) (count alphaCnt : ℕ)
    (hlen : inp.length = 4 * count + 2 * alphaCnt)
    (hc : ∀ j, 4 * j + 4 < 4 * count → gv inp (4 * j) ≤ gv inp (4 * j + 4))
    (ha : ∀ j, 4 * count + 2 * j + 2 < inp.length →
      gv inp (4 * count + 2 * j) ≤ gv inp (4 * count + 2 * j + 2)) :
    stopsSorted (populate inp count) := by
  have hclast : min (4 * count) inp.length = 4 * count := min_eq_left (by omega)
  unfold populate
  rw [hclast]
  have inv := mergeLoop_inv inp (4 * count) (by omega) (by omega) (by omega) hc ha
    inp.length 0 (4 * count) [] (by omega) (by omega) (le_refl _) (by omega)
    (by omega) List.Pairwise.nil
    (fun g hg => absurd hg (List.not_mem_nil g))
    (fun g hg => absurd hg (List.not_mem_nil g))
  obtain ⟨hr4, hrle, hrge, hrpar, hrlen, hrsorted, hrbc, hrba, hexit⟩ := inv
  rcases hexit (by omega) with hcend | haend
  · rw [hcend, colorTail_at_end]
    exact alphaTail_sorted inp (4 * count) ha inp.length _ _ hrge hrpar hrsorted hrba
  · rw [haend, alphaTail_at_end]
    exact colorTail_sorted inp (4 * count) (by omega) hc count _ _ hr4 hrsorted hrbc

/-- Witness for C9: two color stops (offsets 0 and 2) and two alpha
stops (offsets 1 and 3). -/
theorem gradient_populate_monotone_witness :
    ([0, 1, 1, 1, (2:ℚ), 0, 0, 1, 1, 1, 3, 1] : List ℚ).length = 4 * 2 + 2 * 2 ∧
      stopsSorted (populate [0, 1, 1, 1, (2:ℚ), 0, 0, 1, 1, 1, 3, 1] 2) :=
  ⟨rfl, gradient_populate_monotone _ 2 2 rfl
    (by
      intro j hj
      have hj0 : j = 0 := by omega
      subst hj0
      decide)
    (by
      intro j hj
      simp only [List.length_cons, List.length_nil] at hj
      have hj0 : j = 0 := by omega
      subst hj0
      decide)⟩

lemma wrapIter_stuck : ∀ n, wrapIter n (-1 : ℚ) 0 = none := by
  intro n
  induction n with
  | zero =>
      rw [wrapIter, if_pos (by norm_num : (-1:ℚ) < 0)]
  | succ n ih =>
      rw [wrapIter, if_pos (by norm_num : (-1:ℚ) < 0)]
      rw [show (-1:ℚ) + 0 = -1 by norm_num]
      exact ih

lemma position_deg_none : ∀ n, position opsZero n fpDeg (-1) 0 = none := by
  intro n
  unfold position
  rw [if_pos (by norm_num : (-1:ℚ) ≤ 0)]
  rw [if_pos (show fpDeg.cmds.getLast? = some PathCmd.close from rfl)]
  have htot : fpDeg.totalLen = 0 := rfl
  rw [htot, wrapIter_stuck n]

/-- C7 counterexample: on a closed path of total length zero and
requested length -1 the wrap loop `while (lenSearched < 0) lenSearched
+= totalLen` makes no progress, so `position` does not terminate: no
amount of fuel produces a result. -/
theorem position_zero_total_diverges :
    ¬ ∃ n, (position opsZero n fpDeg (-1) 0).isSome := by
  rintro ⟨n, h⟩
  rw [position_deg_none n] at h
  simp at h

lemma wrapIter_term (total : ℚ) (hpos : 0 < total) (len : ℚ) :
    ∃ n r, wrapIter n len total = some r ∧ 0 ≤ r ∧ (0 ≤ len → r = len) ∧
      (len < 0 → r < total) ∧ ∃ k : ℕ, r = len + k * total := by
  have key : ∀ m : ℕ, ∀ l : ℚ, 0 ≤ l + m * total →
      ∃ n r, wrapIter n l total = some r ∧ 0 ≤ r ∧ (0 ≤ l → r = l) ∧
        (l < 0 → r < total) ∧ ∃ k : ℕ, r = l + k * total := by
    intro m
    induction m with
    | zero =>
        intro l hl
        norm_num at hl
        refine ⟨0, l, ?_, hl, fun _ => rfl, fun hneg => absurd hl (not_le.mpr hneg),
          0, by norm_num⟩
        rw [wrapIter, if_neg (not_lt.mpr hl)]
    | succ m ih =>
        intro l hl
        by_cases hneg : l < 0
        · obtain ⟨n, r, hsome, h0, hid, hlt, k, hk⟩ := ih (l + total) (by push_cast at hl ⊢; linarith)
          refine ⟨n + 1, r, ?_, h0, ?_, ?_, k + 1, ?_⟩
          · rw [wrapIter, if_pos hneg]
            exact hsome
          · intro h0l
            exact absurd h0l (not_le.mpr hneg)
          · intro _
            by_cases h2 : 0 ≤ l + total
            · rw [hid h2]
              linarith
            · exact hlt (by linarith)
          · rw [hk]
            push_cast
            ring
        · refine ⟨0, l, ?_, by linarith [not_lt.mp hneg], fun _ => rfl,
            fun h => absurd h hneg, 0, by norm_num⟩
          rw [wrapIter, if_neg hneg]
  obtain ⟨m, hm⟩ := Archimedean.arch (-len) hpos
  rw [nsmul_eq_mul] at hm
  exact key m len (by linarith)

lemma wrapIterDown_term (total : ℚ) (hpos : 0 < total) (len : ℚ) :
    ∃ n r, wrapIterDown n len total = some r ∧ r ≤ total ∧ (len ≤ total → r = len) ∧
      ∃ k : ℕ, r = len - k * total := by
  have key : ∀ m : ℕ, ∀ l : ℚ, l - m * total ≤ total →
      ∃ n r, wrapIterDown n l total = some r ∧ r ≤ total ∧ (l ≤ total → r = l) ∧
        ∃ k : ℕ, r = l - k * total := by
    intro m
    induction m with
    | zero =>
        intro l hl
        norm_num at hl
        refine ⟨0, l, ?_, hl, fun _ => rfl, 0, by norm_num⟩
        rw [wrapIterDown, if_neg (not_lt.mpr hl)]
    | succ m ih =>
        intro l hl
        by_cases hgt : total < l
        · obtain ⟨n, r, hsome, hle, _hid, k, hk⟩ :=
            ih (l - total) (by push_cast at hl ⊢; linarith)
          refine ⟨n + 1, r, ?_, hle, ?_, k + 1, ?_⟩
          · rw [wrapIterDown, if_pos hgt]
            exact hsome
          · intro h
            exact absurd h (not_le.mpr hgt)
          · rw [hk]
            push_cast
            ring
        · refine ⟨0, l, ?_, not_lt.mp hgt, fun _ => rfl, 0, by norm_num⟩
          rw [wrapIterDown, if_neg hgt]
  obtain ⟨m, hm⟩ := Archimedean.arch (len - total) hpos
  rw [nsmul_eq_mul] at hm
  exact key m len (by linarith)

lemma positionWalk_isSome (ops : CurveOps) (fp : FollowPath) (len angle : ℚ) :
    (positionWalk ops fp len angle).isSome := by
  unfold positionWalk
  split <;> rfl

/-- C7 amended: (i) `position` terminates on every open path and on
every closed path of positive total length, at every requested length —
the only unbounded loops are the two wrap `while` loops, and each steps
by the positive total; (ii) for a closed path with positive total
length and `requestedLength ≤ 0` the up-wrap loop yields
`r = len + k * totalLen` with `0 ≤ r`, and `position` walks from the
reset cursor with `r`; (iii) whenever the forward walk exhausts the
remaining commands without reaching the requested length, it returns
the default zero point (its termination is the structural recursion on
the remaining command count). -/
theorem position_termination_amended (ops : CurveOps) (fp : FollowPath)
    (len angle : ℚ)
    (htot : fp.cmds.getLast? = some PathCmd.close → 0 < fp.totalLen) :
    (∃ n, (position ops n fp len angle).isSome) ∧
    (fp.cmds.getLast? = some PathCmd.close → len ≤ 0 →
      ∃ n r, wrapIter n len fp.totalLen = some r ∧ 0 ≤ r ∧
        (∃ k : ℕ, r = len + k * fp.totalLen) ∧
        position ops n fp len angle
          = some (walkLoop ops (resetCursor fp).cnt (resetCursor fp) r angle)) ∧
    (∀ m fp2 l2 a2, walkAllBelow ops m fp2 l2 →
      walkLoop ops m fp2 l2 a2 = (((0:ℚ), (0:ℚ)), a2)) := by
  have closedNeg : fp.cmds.getLast? = some PathCmd.close → len ≤ 0 →
      ∃ n r, wrapIter n len fp.totalLen = some r ∧ 0 ≤ r ∧
        (∃ k : ℕ, r = len + k * fp.totalLen) ∧
        position ops n fp len angle
          = some (walkLoop ops (resetCursor fp).cnt (resetCursor fp) r angle) := by
    intro hclosed hlen
    obtain ⟨n, r, hsome, h0, hid, hlt, k, hk⟩ :=
      wrapIter_term fp.totalLen (htot hclosed) len
    have hrlt : r < fp.totalLen := by
      rcases lt_or_eq_of_le hlen with h | h
      · exact hlt h
      · have hr : r = len := hid (le_of_eq h.symm)
        rw [hr, h]
        exact htot hclosed
    refine ⟨n, r, hsome, h0, ⟨k, hk⟩, ?_⟩
    unfold position
    rw [if_pos hlen, if_pos hclosed, hsome]
    show positionMain ops n (resetCursor fp) r angle
      = some (walkLoop ops (resetCursor fp).cnt (resetCursor fp) r angle)
    have htot2 : (resetCursor fp).totalLen = fp.totalLen := rfl
    unfold positionMain
    rw [htot2, if_neg (not_le.mpr hrlt)]
    have hcur : (resetCursor fp).currentLen = 0 := rfl
    unfold positionWalk
    rw [hcur, if_neg (not_lt.mpr h0)]
  refine ⟨?_, closedNeg, ?_⟩
  · by_cases hlen : len ≤ 0
    · by_cases hclosed : fp.cmds.getLast? = some PathCmd.close
      · obtain ⟨n, r, _, _, _, hpos⟩ := closedNeg hclosed hlen
        exact ⟨n, by rw [hpos]; rfl⟩
      · refine ⟨0, ?_⟩
        unfold position
        rw [if_pos hlen, if_neg hclosed]
        rfl
    · by_cases hbeyond : fp.totalLen ≤ len
      · by_cases hclosed : fp.cmds.getLast? = some PathCmd.close
        · obtain ⟨n, r, hsome, _, _, _⟩ :=
            wrapIterDown_term fp.totalLen (htot hclosed) len
          refine ⟨n, ?_⟩
          unfold position
          rw [if_neg hlen]
          unfold positionMain
          rw [if_pos hbeyond, if_pos hclosed, hsome]
          show (positionWalk ops (resetCursor fp) r angle).isSome
          exact positionWalk_isSome ops (resetCursor fp) r angle
        · refine ⟨0, ?_⟩
          unfold position
          rw [if_neg hlen]
          unfold positionMain
          rw [if_pos hbeyond, if_neg hclosed]
          rfl
      · refine ⟨0, ?_⟩
        unfold position
        rw [if_neg hlen]
        unfold positionMain
        rw [if_neg hbeyond]
        exact positionWalk_isSome ops fp len angle
  · intro m
    induction m with
    | zero => intro fp2 l2 a2 _; rfl
    | succ m ih =>
        intro fp2 l2 a2 hall
        obtain ⟨hstep, hrest⟩ := hall
        rw [walkLoop, if_pos hstep]
        exact ih _ _ _ hrest

/-- Witness for C7's amended theorem: a closed unit-length path
(`fpUnit`, total length 1) with requested length -3/2 (zero
collaborators); the positivity hypothesis is discharged concretely. -/
theorem position_termination_amended_witness :
    (fpUnit.cmds.getLast? = some PathCmd.close → (0:ℚ) < fpUnit.totalLen) ∧
      ((∃ n, (position opsZero n fpUnit (-3/2) 0).isSome) ∧
        (fpUnit.cmds.getLast? = some PathCmd.close → (-3/2 : ℚ) ≤ 0 →
          ∃ n r, wrapIter n (-3/2 : ℚ) fpUnit.totalLen = some r ∧ 0 ≤ r ∧
            (∃ k : ℕ, r = (-3/2 : ℚ) + k * fpUnit.totalLen) ∧
            position opsZero n fpUnit (-3/2) 0
              = some (walkLoop opsZero (resetCursor fpUnit).cnt (resetCursor fpUnit) r 0)) ∧
        (∀ m fp2 l2 a2, walkAllBelow opsZero m fp2 l2 →
          walkLoop opsZero m fp2 l2 a2 = (((0:ℚ), (0:ℚ)), a2))) :=
  ⟨fun _ => by norm_num [fpUnit],
    position_termination_amended opsZero fpUnit (-3/2) 0 (fun _ => by norm_num [fpUnit])⟩

end ThorVG
